import Mathlib

/-!
Shallow embedding of the git-tree commit-range selector
(src/main.rs, src/interesting_branches.rs, src/merge_bases.rs).

The collaborator (the git binary) is external: each invocation is represented
by the byte lines it writes to stdout together with its exit code.  Byte
strings are lists of naturals (the bytes).  Panics raised through expect,
unwrap or assert are explicit outcomes.
-/

namespace GitTree

abbrev Bytes := List Nat

/-- The newline byte, the delimiter passed to read_until. -/
def nl : Nat := 10

/-- Bytes of the 13-byte string refs/remotes/, the remote-reference namespace
tested with first_chunk in interesting_branches.rs line 54. -/
def remotePrefixBytes : Bytes :=
  [114, 101, 102, 115, 47, 114, 101, 109, 111, 116, 101, 115, 47]

/-- Bytes of the 11-byte string refs/heads/, the local-reference namespace
tested in interesting_branches.rs line 56. -/
def localPrefixBytes : Bytes :=
  [114, 101, 102, 115, 47, 104, 101, 97, 100, 115, 47]

/-- UTF-8 continuation byte (0x80 to 0xBF). -/
def contB (b : Nat) : Bool := 128 ≤ b && b ≤ 191

/-- Validity of a byte string as UTF-8, the check performed by
String::from_utf8 and str::from_utf8 in the source.  Standard table:
ASCII, 2-byte C2-DF, 3-byte E0/E1-EC/ED/EE-EF with their restricted first
continuation ranges, 4-byte F0/F1-F3/F4 likewise. -/
def validUtf8 : Bytes → Bool
  | [] => true
  | b :: rest =>
    if b ≤ 127 then validUtf8 rest
    else if 194 ≤ b && b ≤ 223 then
      match rest with
      | c1 :: r => contB c1 && validUtf8 r
      | [] => false
    else if b = 224 then
      match rest with
      | c1 :: c2 :: r => (160 ≤ c1 && c1 ≤ 191) && contB c2 && validUtf8 r
      | _ => false
    else if 225 ≤ b && b ≤ 236 then
      match rest with
      | c1 :: c2 :: r => contB c1 && contB c2 && validUtf8 r
      | _ => false
    else if b = 237 then
      match rest with
      | c1 :: c2 :: r => (128 ≤ c1 && c1 ≤ 159) && contB c2 && validUtf8 r
      | _ => false
    else if 238 ≤ b && b ≤ 239 then
      match rest with
      | c1 :: c2 :: r => contB c1 && contB c2 && validUtf8 r
      | _ => false
    else if b = 240 then
      match rest with
      | c1 :: c2 :: c3 :: r => (144 ≤ c1 && c1 ≤ 191) && contB c2 && contB c3 && validUtf8 r
      | _ => false
    else if 241 ≤ b && b ≤ 243 then
      match rest with
      | c1 :: c2 :: c3 :: r => contB c1 && contB c2 && contB c3 && validUtf8 r
      | _ => false
    else if b = 244 then
      match rest with
      | c1 :: c2 :: c3 :: r => (128 ≤ c1 && c1 ≤ 143) && contB c2 && contB c3 && validUtf8 r
      | _ => false
    else false

/-- The messages of the panics the two parsing stages can raise. -/
inductive PanicMsg
  | sliceUnwrap
  | nonUtf8Branch
  | nonUtf8GitOutput
  | gitUnsuccessful (code : Nat)
  deriving DecidableEq

/-- Outcome of interesting_branches: a panic, the silent Err(Error::Git128),
or the Ok list of branch strings (kept as their bytes). -/
inductive IbOut
  | panic (m : PanicMsg)
  | git128
  | ok (branches : List Bytes)
  deriving DecidableEq

/-- Outcome of merge_bases: a panic or the Ok list of merge-base
identifiers. -/
inductive MbOut
  | panic (m : PanicMsg)
  | ok (bases : List Bytes)
  deriving DecidableEq

/-- Outcome of main.  The unhandled constructor marks the Err(Error::Git128)
case: main.rs line 40 passes the whole Result of interesting_branches to
merge_bases, whose parameter type is a plain vector of strings, so the file
does not type-check and the program has no defined behaviour there. -/
inductive MainOutcome
  | panic (m : PanicMsg)
  | unhandled
  | exit (code : Nat)
  deriving DecidableEq

/-- Rust slice indexing get(a..b): Some exactly when a ≤ b and b ≤ length. -/
def sliceOpt (l : Bytes) (a b : Nat) : Option Bytes :=
  if a ≤ b ∧ b ≤ l.length then some ((l.drop a).take (b - a)) else none

/-- The read_until loop shared by both parsers (interesting_branches.rs lines
51-60, merge_bases.rs lines 32-46).  Each iteration appends the next chunk
(the bytes up to and including a newline, or the trailing bytes at end of
stream) to the scratch buffer, hands the buffer and the chunk byte count
minus one (the source value len) to the loop body, then clears the buffer;
when no bytes remain the loop exits leaving the buffer as it is. -/
def lineFold {S : Type} (f : S → Bytes → Nat → S) : S → Bytes → List Bytes → S × Bytes
  | st, buffer, [] => (st, buffer)
  | st, buffer, c :: cs => lineFold f (f st (buffer ++ c) (c.length - 1)) [] cs

/-- HashSet::insert on the locals set, modelled as an insertion-ordered list
without duplicates. -/
def insertName (locals : List Bytes) (n : Bytes) : List Bytes :=
  if n ∈ locals then locals else locals ++ [n]

/-- Loop body of the branch-listing parse (interesting_branches.rs lines
51-60): classify the buffered line by its 13-byte or 11-byte namespace test,
slice off the namespace (unwrap panics when the slice range is invalid), and
record the remainder as a remote candidate (in order, duplicates kept) or a
local name (deduplicated). -/
def ibStep (st : Except PanicMsg (List Bytes × List Bytes)) (buffer : Bytes) (len : Nat) :
    Except PanicMsg (List Bytes × List Bytes) :=
  match st with
  | Except.error e => Except.error e
  | Except.ok (locals, remotes) =>
    if buffer.take remotePrefixBytes.length = remotePrefixBytes then
      match sliceOpt buffer remotePrefixBytes.length len with
      | some r => Except.ok (locals, remotes ++ [r])
      | none => Except.error PanicMsg.sliceUnwrap
    else if buffer.take localPrefixBytes.length = localPrefixBytes then
      match sliceOpt buffer localPrefixBytes.length len with
      | some n => Except.ok (insertName locals n, remotes)
      | none => Except.error PanicMsg.sliceUnwrap
    else Except.ok (locals, remotes)

/-- Loop body of the merge-base parse (merge_bases.rs lines 32-46): slice the
line without its newline, require it to be UTF-8 (expect non-utf-8 git
output), and append it. -/
def mbStep (st : Except PanicMsg (List Bytes)) (buffer : Bytes) (len : Nat) :
    Except PanicMsg (List Bytes) :=
  match st with
  | Except.error e => Except.error e
  | Except.ok bases =>
    match sliceOpt buffer 0 len with
    | some line =>
      if validUtf8 line then Except.ok (bases ++ [line]) else Except.error PanicMsg.nonUtf8GitOutput
    | none => Except.error PanicMsg.sliceUnwrap

/-- Branch-listing parse of a collaborator output given as newline-free lines,
each terminated by a newline on the stream, starting from an empty buffer. -/
def ibParsed (lines : List Bytes) : Except PanicMsg (List Bytes × List Bytes) :=
  (lineFold ibStep (Except.ok ([], [])) [] (lines.map (fun l => l ++ [nl]))).1

/-- Merge-base parse of a collaborator output given as newline-free lines,
starting from an empty buffer. -/
def mbParsed (lines : List Bytes) : Except PanicMsg (List Bytes) :=
  (lineFold mbStep (Except.ok []) [] (lines.map (fun l => l ++ [nl]))).1

/-- Bare name of a remote candidate: the bytes after the first slash
(interesting_branches.rs lines 64-66); none when no slash exists. -/
def bareName (r : Bytes) : Option Bytes :=
  match r.findIdx? (fun b => b == 47) with
  | some idx => some (r.drop (idx + 1))
  | none => none

/-- The remote candidates kept by the loop of interesting_branches.rs lines
63-70: those with a slash whose bare name is in the locals set, in encounter
order and with duplicates kept. -/
def matchedRemotes (locals remotes : List Bytes) : List Bytes :=
  remotes.filter (fun r =>
    match bareName r with
    | some n => decide (n ∈ locals)
    | none => false)

/-- String::from_utf8(..).expect(non-utf-8 branch) applied to each element in
order; the first invalid element panics. -/
def validateAll : List Bytes → Except PanicMsg (List Bytes)
  | [] => Except.ok []
  | b :: rest =>
    if validUtf8 b then
      match validateAll rest with
      | Except.ok v => Except.ok (b :: v)
      | Except.error e => Except.error e
    else Except.error PanicMsg.nonUtf8Branch

/-- Tail of interesting_branches (lines 62-79): build the interesting list
(matched remotes first, then the locals in the given iteration order), then
wait for git: status 128 becomes the silent Err, any other non-zero status
panics through the assert, and 0 returns Ok.  localsOrder stands for the
iteration order of HashSet::into_iter, which the standard library leaves
unspecified; theorems constrain it to permutations of the inserted names. -/
def ibFinish (locals remotes localsOrder : List Bytes) (exitCode : Nat) : IbOut :=
  match validateAll (matchedRemotes locals remotes ++ localsOrder) with
  | Except.error e => IbOut.panic e
  | Except.ok interesting =>
    if exitCode = 128 then IbOut.git128
    else if exitCode = 0 then IbOut.ok interesting
    else IbOut.panic (PanicMsg.gitUnsuccessful exitCode)

/-- interesting_branches with an explicit HashSet iteration order for the
final extend over the locals set. -/
def ibRun (lines : List Bytes) (exitCode : Nat) (localsOrder : List Bytes) : IbOut :=
  match ibParsed lines with
  | Except.error e => IbOut.panic e
  | Except.ok (locals, remotes) => ibFinish locals remotes localsOrder exitCode

/-- Per-line classification of the branch listing, the lines-level view of
ibStep: lines.foldl ibLineStep ([], []) computes the locals set (insertion
ordered) and the remote candidate list. -/
def ibLineStep (acc : List Bytes × List Bytes) (l : Bytes) : List Bytes × List Bytes :=
  if l.take remotePrefixBytes.length = remotePrefixBytes then
    (acc.1, acc.2 ++ [l.drop remotePrefixBytes.length])
  else if l.take localPrefixBytes.length = localPrefixBytes then
    (insertName acc.1 (l.drop localPrefixBytes.length), acc.2)
  else acc

/-- Locals set and remote candidates of a branch listing. -/
def parseLines (lines : List Bytes) : List Bytes × List Bytes :=
  lines.foldl ibLineStep ([], [])

/-- The local branch names of a listing, deduplicated in insertion order. -/
def localNames (lines : List Bytes) : List Bytes := (parseLines lines).1

/-- The remote candidates of a listing, in encounter order. -/
def remoteCands (lines : List Bytes) : List Bytes := (parseLines lines).2

/-- The local names as read off the listing line by line (before
deduplication): lines in the local namespace, prefix stripped.  The remote
test comes first exactly as in the source if-chain. -/
def localLineNames (lines : List Bytes) : List Bytes :=
  lines.filterMap (fun l =>
    if l.take remotePrefixBytes.length = remotePrefixBytes then none
    else if l.take localPrefixBytes.length = localPrefixBytes then
      some (l.drop localPrefixBytes.length)
    else none)

/-- The remote candidates as read off the listing line by line. -/
def remoteLineCands (lines : List Bytes) : List Bytes :=
  lines.filterMap (fun l =>
    if l.take remotePrefixBytes.length = remotePrefixBytes then
      some (l.drop remotePrefixBytes.length)
    else none)

/-- interesting_branches (interesting_branches.rs lines 40-80) on a
collaborator output.  The canonical instance takes the HashSet iteration
order to be the insertion order of the locals set. -/
def interesting_branches (lines : List Bytes) (exitCode : Nat) : IbOut :=
  ibRun lines exitCode (localNames lines)

/-- merge_bases (merge_bases.rs lines 23-51) on a collaborator output.  The
interesting-branch argument only forms the spawned command line, so it does
not influence the parse; git's answer is the lines input. -/
def merge_bases (lines : List Bytes) (exitCode : Nat)
    (_interestingBranches : List Bytes) : MbOut :=
  match mbParsed lines with
  | Except.error e => MbOut.panic e
  | Except.ok bases =>
    if exitCode = 0 then MbOut.ok bases else MbOut.panic (PanicMsg.gitUnsuccessful exitCode)

/-- Lines-level view of mbStep: append the line when it is UTF-8, panic
otherwise; errors propagate. -/
def mbLineStep (st : Except PanicMsg (List Bytes)) (l : Bytes) : Except PanicMsg (List Bytes) :=
  match st with
  | Except.error e => Except.error e
  | Except.ok bases =>
    if validUtf8 l then Except.ok (bases ++ [l]) else Except.error PanicMsg.nonUtf8GitOutput

/-- main (main.rs lines 35-56).  Modelled from the spec: the Include/Exclude
Deriver (includes_excludes.rs) is absent from the examined sources and its
policy is left implementation-defined by the design, so it appears as an
arbitrary function of its two inputs.  The final invocation is spawned with
the derived arguments; its exit status is awaited and then dropped, after
which main returns, so the process exit code is 0.  The Err case of
interesting_branches is the unhandled outcome described at MainOutcome. -/
def main_run (branchLines : List Bytes) (branchCode : Nat)
    (mbLines : List Bytes) (mbCode : Nat)
    (deriver : List Bytes → List Bytes → List Bytes × List Bytes)
    (_logStatus : Nat) : MainOutcome :=
  match interesting_branches branchLines branchCode with
  | IbOut.panic m => MainOutcome.panic m
  | IbOut.git128 => MainOutcome.unhandled
  | IbOut.ok ib =>
    match merge_bases mbLines mbCode ib with
    | MbOut.panic m => MainOutcome.panic m
    | MbOut.ok mbs =>
      let _ := deriver ib mbs
      MainOutcome.exit 0

/-- Concrete byte strings used in closed statements. -/
def mainBytes : Bytes := [109, 97, 105, 110]

def aaBytes : Bytes := [97, 97]

def bbBytes : Bytes := [98, 98]

def featureBytes : Bytes := [102, 101, 97, 116, 117, 114, 101]

def originFeatureBytes : Bytes := [111, 114, 105, 103, 105, 110, 47] ++ featureBytes

def oaaBytes : Bytes := [111, 47] ++ aaBytes

def c2Lines : List Bytes :=
  [remotePrefixBytes ++ originFeatureBytes, localPrefixBytes ++ featureBytes]

def w1Lines : List Bytes := [localPrefixBytes ++ mainBytes]

def w6Lines : List Bytes := [remotePrefixBytes ++ oaaBytes, localPrefixBytes ++ aaBytes]

def w10Lines : List Bytes :=
  [remotePrefixBytes ++ oaaBytes, remotePrefixBytes ++ oaaBytes, localPrefixBytes ++ aaBytes]

def c7Lines : List Bytes := [localPrefixBytes ++ aaBytes, localPrefixBytes ++ bbBytes]

def c9Lines : List Bytes := [remotePrefixBytes ++ ([111, 47] ++ [255])]

def c9BadLocalLines : List Bytes := [localPrefixBytes ++ [255]]

def c9BadMatchedLines : List Bytes :=
  [remotePrefixBytes ++ ([255, 47] ++ aaBytes), localPrefixBytes ++ aaBytes]

def c5Deriver : List Bytes → List Bytes → List Bytes × List Bytes := fun _ _ => ([], [])

/-! Generic facts about the read_until loop. -/

/-- Starting from an empty scratch buffer, the loop leaves the buffer empty
whatever the stream contents, because every iteration ends by clearing it. -/
theorem lineFold_buffer_empty {S : Type} (f : S → Bytes → Nat → S) (chunks : List Bytes) :
    ∀ st : S, (lineFold f st [] chunks).2 = [] := by
  induction chunks with
  | nil => intro st; rfl
  | cons c cs ih => intro st; simp only [lineFold]; exact ih _

/-- The state computed by the loop is a fold over the chunks. -/
theorem lineFold_fst {S : Type} (f : S → Bytes → Nat → S) (chunks : List Bytes) :
    ∀ st : S, (lineFold f st [] chunks).1
      = chunks.foldl (fun s c => f s c (c.length - 1)) st := by
  induction chunks with
  | nil => intro st; rfl
  | cons c cs ih =>
    intro st
    simp only [lineFold, List.foldl_cons, List.nil_append]
    exact ih _

/-- Taking a prefix-length slice of a newline-terminated line sees through the
newline whenever the candidate has no newline byte. -/
theorem take_append_nl {p l : Bytes} (hp : nl ∉ p) :
    ((l ++ [nl]).take p.length = p) ↔ (l.take p.length = p) := by
  rcases le_or_lt p.length l.length with h | h
  · rw [List.take_append_of_le_length h]
  · constructor
    · intro he
      exfalso
      apply hp
      have hlen : (l ++ [nl]).length ≤ p.length := by
        simp only [List.length_append, List.length_cons, List.length_nil]
        omega
      rw [List.take_of_length_le hlen] at he
      rw [← he]
      simp
    · intro he
      exfalso
      rw [List.take_of_length_le (Nat.le_of_lt h)] at he
      have := congrArg List.length he
      omega

/-- Rust get(k..len) on the buffered line succeeds and drops the namespace
together with the trailing newline. -/
theorem sliceOpt_append_nl {k : Nat} {l : Bytes} (h : k ≤ l.length) :
    sliceOpt (l ++ [nl]) k l.length = some (l.drop k) := by
  unfold sliceOpt
  rw [if_pos]
  · congr 1
    rw [List.drop_append_of_le_length h]
    exact List.take_left' (by simp)
  · refine ⟨h, ?_⟩
    simp only [List.length_append, List.length_cons, List.length_nil]
    omega

/-- One loop iteration of the branch parse, viewed at the line level. -/
theorem ibStep_line (acc : List Bytes × List Bytes) (l : Bytes) :
    ibStep (Except.ok acc) (l ++ [nl]) l.length = Except.ok (ibLineStep acc l) := by
  obtain ⟨locals, remotes⟩ := acc
  have hr : nl ∉ remotePrefixBytes := by decide
  have hl : nl ∉ localPrefixBytes := by decide
  simp only [ibStep, ibLineStep]
  by_cases h1 : l.take remotePrefixBytes.length = remotePrefixBytes
  · rw [if_pos ((take_append_nl hr).mpr h1), if_pos h1]
    have hle : remotePrefixBytes.length ≤ l.length := by
      have := congrArg List.length h1
      simp only [List.length_take] at this
      omega
    rw [sliceOpt_append_nl hle]
  · rw [if_neg (fun hx => h1 ((take_append_nl hr).mp hx)), if_neg h1]
    by_cases h2 : l.take localPrefixBytes.length = localPrefixBytes
    · rw [if_pos ((take_append_nl hl).mpr h2), if_pos h2]
      have hle : localPrefixBytes.length ≤ l.length := by
        have := congrArg List.length h2
        simp only [List.length_take] at this
        omega
      rw [sliceOpt_append_nl hle]
    · rw [if_neg (fun hx => h2 ((take_append_nl hl).mp hx)), if_neg h2]

/-- The chunk-level branch parse never panics on newline-terminated lines and
computes the lines-level fold. -/
theorem foldl_ibChunk (lines : List Bytes) :
    ∀ acc : List Bytes × List Bytes,
      (lines.map (fun l => l ++ [nl])).foldl (fun s c => ibStep s c (c.length - 1)) (Except.ok acc)
        = Except.ok (lines.foldl ibLineStep acc) := by
  induction lines with
  | nil => intro acc; rfl
  | cons l ls ih =>
    intro acc
    simp only [List.map_cons, List.foldl_cons]
    have hlen : (l ++ [nl]).length - 1 = l.length := by
      simp
    rw [hlen, ibStep_line]
    exact ih _

/-- The branch parse equals the lines-level parse. -/
theorem ibParsed_eq (lines : List Bytes) : ibParsed lines = Except.ok (parseLines lines) := by
  unfold ibParsed parseLines
  rw [lineFold_fst]
  exact foldl_ibChunk lines ([], [])

/-- One loop iteration of the merge-base parse, viewed at the line level. -/
theorem mbStep_line (st : Except PanicMsg (List Bytes)) (l : Bytes) :
    mbStep st (l ++ [nl]) l.length = mbLineStep st l := by
  match st with
  | Except.error e => rfl
  | Except.ok bases =>
    unfold mbStep mbLineStep
    rw [sliceOpt_append_nl (Nat.zero_le _)]
    rw [List.drop_zero]

/-- The merge-base parse equals the lines-level fold. -/
theorem mbParsed_eq (lines : List Bytes) :
    mbParsed lines = lines.foldl mbLineStep (Except.ok []) := by
  unfold mbParsed
  rw [lineFold_fst]
  suffices h : ∀ st, (lines.map (fun l => l ++ [nl])).foldl
      (fun s c => mbStep s c (c.length - 1)) st = lines.foldl mbLineStep st from h _
  induction lines with
  | nil => intro st; rfl
  | cons l ls ih =>
    intro st
    simp only [List.map_cons, List.foldl_cons]
    have hlen : (l ++ [nl]).length - 1 = l.length := by
      simp
    rw [hlen, mbStep_line]
    exact ih _

/-! Facts about the locals set. -/

theorem mem_insertName {locals : List Bytes} {n x : Bytes} :
    x ∈ insertName locals n ↔ x ∈ locals ∨ x = n := by
  unfold insertName
  split
  · next h =>
    constructor
    · exact Or.inl
    · intro hx
      rcases hx with hx | rfl
      · exact hx
      · exact h
  · next h => simp

theorem nodup_insertName {locals : List Bytes} (n : Bytes) (hd : locals.Nodup) :
    (insertName locals n).Nodup := by
  unfold insertName
  split
  · exact hd
  · next h =>
    refine List.Nodup.append hd (List.nodup_singleton n) ?_
    intro x hx hn
    rw [List.mem_singleton] at hn
    exact h (hn ▸ hx)

theorem mem_foldl_insertName (l : List Bytes) :
    ∀ (acc : List Bytes) (x : Bytes), x ∈ l.foldl insertName acc ↔ x ∈ acc ∨ x ∈ l := by
  induction l with
  | nil => intro acc x; simp
  | cons n ls ih =>
    intro acc x
    simp only [List.foldl_cons]
    rw [ih, mem_insertName, List.mem_cons]
    tauto

theorem nodup_foldl_insertName (l : List Bytes) :
    ∀ acc : List Bytes, acc.Nodup → (l.foldl insertName acc).Nodup := by
  induction l with
  | nil => intro acc h; exact h
  | cons n ls ih =>
    intro acc h
    exact ih _ (nodup_insertName n h)

/-! Structure of the lines-level parse. -/

theorem foldl_ibLineStep (lines : List Bytes) :
    ∀ acc : List Bytes × List Bytes,
      lines.foldl ibLineStep acc
        = ((localLineNames lines).foldl insertName acc.1, acc.2 ++ remoteLineCands lines) := by
  induction lines with
  | nil =>
    intro acc
    simp [localLineNames, remoteLineCands]
  | cons l ls ih =>
    intro acc
    by_cases h1 : l.take remotePrefixBytes.length = remotePrefixBytes
    · simp only [List.foldl_cons, ibLineStep, if_pos h1]
      rw [ih]
      unfold localLineNames remoteLineCands
      simp only [List.filterMap_cons, if_pos h1]
      simp [List.append_assoc]
    · by_cases h2 : l.take localPrefixBytes.length = localPrefixBytes
      · simp only [List.foldl_cons, ibLineStep, if_neg h1, if_pos h2]
        rw [ih]
        unfold localLineNames remoteLineCands
        simp only [List.filterMap_cons, if_neg h1, if_pos h2]
        rfl
      · simp only [List.foldl_cons, ibLineStep, if_neg h1, if_neg h2]
        rw [ih]
        unfold localLineNames remoteLineCands
        simp only [List.filterMap_cons, if_neg h1, if_neg h2]

theorem localNames_eq (lines : List Bytes) :
    localNames lines = (localLineNames lines).foldl insertName [] := by
  unfold localNames parseLines
  rw [foldl_ibLineStep]

theorem remoteCands_eq (lines : List Bytes) : remoteCands lines = remoteLineCands lines := by
  unfold remoteCands parseLines
  rw [foldl_ibLineStep]
  simp

theorem mem_localNames {lines : List Bytes} {n : Bytes} :
    n ∈ localNames lines ↔ n ∈ localLineNames lines := by
  rw [localNames_eq, mem_foldl_insertName]
  simp

theorem nodup_localNames (lines : List Bytes) : (localNames lines).Nodup := by
  rw [localNames_eq]
  exact nodup_foldl_insertName _ _ List.nodup_nil

/-! Facts about utf-8 validation of the result list. -/

theorem validateAll_ok_inv : ∀ {l v : List Bytes}, validateAll l = Except.ok v → v = l := by
  intro l
  induction l with
  | nil =>
    intro v h
    unfold validateAll at h
    cases h
    rfl
  | cons b rest ih =>
    intro v h
    unfold validateAll at h
    by_cases hv : validUtf8 b
    · rw [if_pos hv] at h
      cases hrec : validateAll rest with
      | ok w =>
        rw [hrec] at h
        cases h
        rw [ih hrec]
      | error e =>
        rw [hrec] at h
        cases h
    · rw [if_neg hv] at h
      cases h

theorem validateAll_error_of_mem :
    ∀ {l : List Bytes} {b : Bytes}, b ∈ l → validUtf8 b = false →
      validateAll l = Except.error PanicMsg.nonUtf8Branch := by
  intro l
  induction l with
  | nil => intro b h; simp at h
  | cons a rest ih =>
    intro b hb hbad
    unfold validateAll
    rcases List.mem_cons.mp hb with rfl | hm
    · rw [hbad]
      simp
    · by_cases ha : validUtf8 a
      · rw [if_pos ha, ih hm hbad]
      · rw [if_neg ha]

/-! Inversion of successful runs. -/

theorem ibFinish_ok_inv {locals remotes ord : List Bytes} {code : Nat} {out : List Bytes}
    (h : ibFinish locals remotes ord code = IbOut.ok out) :
    code = 0 ∧ out = matchedRemotes locals remotes ++ ord := by
  unfold ibFinish at h
  split at h
  · exact absurd h (by simp)
  · next v hv =>
    split at h
    · exact absurd h (by simp)
    · split at h
      · next h0 =>
        cases h
        exact ⟨h0, validateAll_ok_inv hv⟩
      · exact absurd h (by simp)

theorem ibRun_ok_inv {lines : List Bytes} {code : Nat} {ord out : List Bytes}
    (h : ibRun lines code ord = IbOut.ok out) :
    code = 0 ∧ out = matchedRemotes (localNames lines) (remoteLineCands lines) ++ ord := by
  unfold ibRun at h
  rw [ibParsed_eq] at h
  have h2 : ibFinish (parseLines lines).1 (parseLines lines).2 ord code = IbOut.ok out := h
  obtain ⟨h0, he⟩ := ibFinish_ok_inv h2
  refine ⟨h0, ?_⟩
  rw [he]
  have : (parseLines lines).2 = remoteLineCands lines := remoteCands_eq lines
  rw [this]
  rfl

theorem interesting_branches_ok_inv {lines : List Bytes} {code : Nat} {out : List Bytes}
    (h : interesting_branches lines code = IbOut.ok out) :
    code = 0
      ∧ out = matchedRemotes (localNames lines) (remoteLineCands lines) ++ localNames lines :=
  ibRun_ok_inv h

/-! Facts about the matched-remote segment. -/

theorem mem_matchedRemotes {locals remotes : List Bytes} {r n : Bytes}
    (h : bareName r = some n) :
    r ∈ matchedRemotes locals remotes ↔ r ∈ remotes ∧ n ∈ locals := by
  unfold matchedRemotes
  rw [List.mem_filter]
  simp [h]

theorem count_matchedRemotes {locals remotes : List Bytes} {r n : Bytes}
    (h : bareName r = some n) (hn : n ∈ locals) :
    (matchedRemotes locals remotes).count r = remotes.count r := by
  unfold matchedRemotes
  apply List.count_filter
  simp [h, hn]

/-! Error propagation in the merge-base fold. -/

theorem foldl_mbLineStep_error (lines : List Bytes) (e : PanicMsg) :
    lines.foldl mbLineStep (Except.error e) = Except.error e := by
  induction lines with
  | nil => rfl
  | cons l ls ih => simpa only [List.foldl_cons, mbLineStep] using ih

theorem count_eq_one_of_nodup_mem {l : List Bytes} {a : Bytes} (hd : l.Nodup) (ha : a ∈ l) :
    l.count a = 1 := by
  induction l with
  | nil => simp at ha
  | cons b t ih =>
    rcases List.mem_cons.mp ha with rfl | hm
    · have hb : a ∉ t := (List.nodup_cons.mp hd).1
      simp [List.count_cons, List.count_eq_zero.mpr hb]
    · have hab : ¬a = b := fun he => (List.nodup_cons.mp hd).1 (he ▸ hm)
      simp [List.count_cons, ih (List.nodup_cons.mp hd).2 hm, hab]

theorem mb_error_of_mem :
    ∀ {lines : List Bytes} {l : Bytes}, l ∈ lines → validUtf8 l = false →
      ∀ bases : List Bytes,
        lines.foldl mbLineStep (Except.ok bases) = Except.error PanicMsg.nonUtf8GitOutput := by
  intro lines
  induction lines with
  | nil => intro l h; simp at h
  | cons a rest ih =>
    intro l hl hbad bases
    rcases List.mem_cons.mp hl with rfl | hm
    · simp only [List.foldl_cons, mbLineStep, hbad]
      simp [foldl_mbLineStep_error]
    · by_cases ha : validUtf8 a
      · simp only [List.foldl_cons, mbLineStep, if_pos ha]
        exact ih hm hbad _
      · simp only [List.foldl_cons, mbLineStep, if_neg ha]
        exact foldl_mbLineStep_error _ _

/-! The claims. -/

/-- C1: on every successful branch enumeration the Interesting Branch List is
the matched remotes followed by the locals; the locals segment enumerates
the local branch names of the listing with no duplicates, each exactly once;
a remote candidate is kept exactly when its bare name (the text after its
first slash) is a local branch name; and when the listing has no remote
lines the result is exactly the set of local names with no duplicates. -/
theorem C1_local_once_remote_iff (lines : List Bytes) (code : Nat) (out : List Bytes)
    (h : interesting_branches lines code = IbOut.ok out) :
    out = matchedRemotes (localNames lines) (remoteLineCands lines) ++ localNames lines
    ∧ (∀ n, n ∈ localNames lines ↔ n ∈ localLineNames lines)
    ∧ (localNames lines).Nodup
    ∧ (∀ n, n ∈ localLineNames lines → (localNames lines).count n = 1)
    ∧ (∀ r n, bareName r = some n →
        (r ∈ matchedRemotes (localNames lines) (remoteLineCands lines)
          ↔ r ∈ remoteLineCands lines ∧ n ∈ localLineNames lines))
    ∧ (remoteLineCands lines = [] → out.Nodup ∧ ∀ n, n ∈ out ↔ n ∈ localLineNames lines) := by
  obtain ⟨h0, hout⟩ := interesting_branches_ok_inv h
  refine ⟨hout, fun n => mem_localNames, nodup_localNames lines, ?_, ?_, ?_⟩
  · intro n hn
    exact count_eq_one_of_nodup_mem (nodup_localNames lines) (mem_localNames.mpr hn)
  · intro r n hr
    rw [mem_matchedRemotes hr]
    exact and_congr_right fun _ => mem_localNames
  · intro hrc
    have hm : matchedRemotes (localNames lines) (remoteLineCands lines) = [] := by
      rw [hrc]
      rfl
    rw [hout, hm, List.nil_append]
    exact ⟨nodup_localNames lines, fun n => mem_localNames⟩

/-- C1 witness: a listing with the single local branch main. -/
theorem C1_local_once_remote_iff_witness :
    ([mainBytes] : List Bytes)
        = matchedRemotes (localNames w1Lines) (remoteLineCands w1Lines) ++ localNames w1Lines
    ∧ (∀ n, n ∈ localNames w1Lines ↔ n ∈ localLineNames w1Lines)
    ∧ (localNames w1Lines).Nodup
    ∧ (∀ n, n ∈ localLineNames w1Lines → (localNames w1Lines).count n = 1)
    ∧ (∀ r n, bareName r = some n →
        (r ∈ matchedRemotes (localNames w1Lines) (remoteLineCands w1Lines)
          ↔ r ∈ remoteLineCands w1Lines ∧ n ∈ localLineNames w1Lines))
    ∧ (remoteLineCands w1Lines = [] →
        ([mainBytes] : List Bytes).Nodup ∧ ∀ n, n ∈ ([mainBytes] : List Bytes) ↔ n ∈ localLineNames w1Lines) :=
  C1_local_once_remote_iff w1Lines 0 [mainBytes] (by decide)

/-- C2 counterexample: with the listing refs/remotes/origin/feature and
refs/heads/feature the Interesting Branch List holds the prefix-stripped
strings origin/feature and feature; the fully qualified reference strings
refs/remotes/origin/feature and refs/heads/feature are not in it, so the
claim fails as stated. -/
theorem C2_fully_qualified_counterexample :
    interesting_branches c2Lines 0 = IbOut.ok [originFeatureBytes, featureBytes]
    ∧ (remotePrefixBytes ++ originFeatureBytes) ∉ ([originFeatureBytes, featureBytes] : List Bytes)
    ∧ (localPrefixBytes ++ featureBytes) ∉ ([originFeatureBytes, featureBytes] : List Bytes) := by
  decide

/-- C2 (amended): for every branch listing containing the remote line
refs/remotes/origin/feature and the local line refs/heads/feature, a
successful Interesting Branch List contains the prefix-stripped references
origin/feature and feature. -/
theorem C2_stripped_refs_present (lines : List Bytes) (code : Nat) (out : List Bytes)
    (h1 : (remotePrefixBytes ++ originFeatureBytes) ∈ lines)
    (h2 : (localPrefixBytes ++ featureBytes) ∈ lines)
    (h : interesting_branches lines code = IbOut.ok out) :
    originFeatureBytes ∈ out ∧ featureBytes ∈ out := by
  obtain ⟨h0, hout⟩ := interesting_branches_ok_inv h
  have hfl : featureBytes ∈ localLineNames lines := by
    unfold localLineNames
    rw [List.mem_filterMap]
    exact ⟨localPrefixBytes ++ featureBytes, h2, by decide⟩
  have hfL : featureBytes ∈ localNames lines := mem_localNames.mpr hfl
  have hrc : originFeatureBytes ∈ remoteLineCands lines := by
    unfold remoteLineCands
    rw [List.mem_filterMap]
    exact ⟨remotePrefixBytes ++ originFeatureBytes, h1, by decide⟩
  have hb : bareName originFeatureBytes = some featureBytes := by decide
  have hm : originFeatureBytes ∈ matchedRemotes (localNames lines) (remoteLineCands lines) :=
    (mem_matchedRemotes hb).mpr ⟨hrc, hfL⟩
  constructor
  · rw [hout]
    exact List.mem_append.mpr (Or.inl hm)
  · rw [hout]
    exact List.mem_append.mpr (Or.inr hfL)

/-- C2 witness: the amended claim at the two-line listing. -/
theorem C2_stripped_refs_present_witness :
    originFeatureBytes ∈ ([originFeatureBytes, featureBytes] : List Bytes)
    ∧ featureBytes ∈ ([originFeatureBytes, featureBytes] : List Bytes) :=
  C2_stripped_refs_present c2Lines 0 [originFeatureBytes, featureBytes]
    (by decide) (by decide) (by decide)

/-- C3: when the branch-enumeration collaborator exits with status 128,
interesting_branches returns the silent Err(Error::Git128) exactly as its
documentation prescribes; main.rs however feeds that unhandled Result into
merge_bases, so the documented silent non-zero exit is not implemented. -/
theorem C3_git128_returns_err : interesting_branches w1Lines 128 = IbOut.git128 := by decide

/-- C4: an empty merge-base collaborator output with a successful exit status
yields the empty merge-base list through the same path as any other output;
the code has no error branch specific to emptiness. -/
theorem C4_empty_output_empty_result (br : List Bytes) : merge_bases [] 0 br = MbOut.ok [] := rfl

/-- C5 counterexample: with benign collaborator outputs and the final
history-listing invocation exiting with status 1, the program still exits 0:
main waits on git log but drops its exit status, so it is not propagated. -/
theorem C5_exit_status_discarded_counterexample :
    main_run [] 0 [] 0 c5Deriver 1 = MainOutcome.exit 0 ∧ (1 : Nat) ≠ 0 :=
  ⟨by decide, by decide⟩

/-- C5 (amended): on a successful run main discards the final invocation's
exit status: whenever the program exits normally its exit code is 0,
whatever status the history-listing step returned. -/
theorem C5_exit_zero_on_success (branchLines : List Bytes) (branchCode : Nat)
    (mbLines : List Bytes) (mbCode : Nat)
    (deriver : List Bytes → List Bytes → List Bytes × List Bytes) (logStatus c : Nat)
    (h : main_run branchLines branchCode mbLines mbCode deriver logStatus = MainOutcome.exit c) :
    c = 0 := by
  unfold main_run at h
  split at h
  · exact absurd h (by simp)
  · exact absurd h (by simp)
  · split at h
    · exact absurd h (by simp)
    · simp only [MainOutcome.exit.injEq] at h
      omega

/-- C5 witness: the amended claim applied at a concrete run whose final
invocation exits 1. -/
theorem C5_exit_zero_on_success_witness : (0 : Nat) = 0 :=
  C5_exit_zero_on_success [] 0 [] 0 c5Deriver 1 0 (by decide)

/-- C6: on every successful run the result is the matched remote references,
in the encounter order of the underlying listing (a sublist of the remote
candidates in listing order), followed by all the local references. -/
theorem C6_matched_remotes_first (lines : List Bytes) (code : Nat) (out : List Bytes)
    (h : interesting_branches lines code = IbOut.ok out) :
    out = matchedRemotes (localNames lines) (remoteLineCands lines) ++ localNames lines
    ∧ List.Sublist (matchedRemotes (localNames lines) (remoteLineCands lines))
        (remoteLineCands lines) :=
  ⟨(interesting_branches_ok_inv h).2, List.filter_sublist _⟩

/-- C6 witness: a matched remote precedes the local reference. -/
theorem C6_matched_remotes_first_witness :
    ([oaaBytes, aaBytes] : List Bytes)
        = matchedRemotes (localNames w6Lines) (remoteLineCands w6Lines) ++ localNames w6Lines
    ∧ List.Sublist (matchedRemotes (localNames w6Lines) (remoteLineCands w6Lines))
        (remoteLineCands w6Lines) :=
  C6_matched_remotes_first w6Lines 0 [oaaBytes, aaBytes] (by decide)

/-- C7 counterexample: the locals set is a HashSet whose iteration order is
unspecified; two runs over the same two-local listing whose iteration orders
are both permutations of the inserted names produce different Interesting
Branch Lists, so the pipeline is not a function of the collaborator outputs
alone. -/
theorem C7_local_order_counterexample :
    List.Perm [aaBytes, bbBytes] (localNames c7Lines)
    ∧ List.Perm [bbBytes, aaBytes] (localNames c7Lines)
    ∧ ibRun c7Lines 0 [aaBytes, bbBytes] ≠ ibRun c7Lines 0 [bbBytes, aaBytes] := by
  decide

/-- C7 (amended): for fixed collaborator outputs, two successful runs agree
up to the iteration order of the locals set: both lists are the same matched
remote segment followed by their respective locals orders, hence
permutations of one another, and the merge-base stage result is identical
because the branch arguments only form the command line. -/
theorem C7_deterministic_up_to_local_order (lines : List Bytes) (code : Nat)
    (ord1 ord2 out1 out2 : List Bytes)
    (h1 : List.Perm ord1 (localNames lines)) (h2 : List.Perm ord2 (localNames lines))
    (hr1 : ibRun lines code ord1 = IbOut.ok out1)
    (hr2 : ibRun lines code ord2 = IbOut.ok out2) :
    List.Perm out1 out2
    ∧ (∃ m, out1 = m ++ ord1 ∧ out2 = m ++ ord2)
    ∧ ∀ mbLines mbCode, merge_bases mbLines mbCode out1 = merge_bases mbLines mbCode out2 := by
  obtain ⟨_, e1⟩ := ibRun_ok_inv hr1
  obtain ⟨_, e2⟩ := ibRun_ok_inv hr2
  refine ⟨?_, ⟨matchedRemotes (localNames lines) (remoteLineCands lines), e1, e2⟩,
    fun _ _ => rfl⟩
  rw [e1, e2]
  exact List.Perm.append_left _ (h1.trans h2.symm)

/-- C7 witness: two admissible orders over the two-local listing. -/
theorem C7_deterministic_up_to_local_order_witness :
    List.Perm ([aaBytes, bbBytes] : List Bytes) [bbBytes, aaBytes]
    ∧ (∃ m, ([aaBytes, bbBytes] : List Bytes) = m ++ [aaBytes, bbBytes]
        ∧ ([bbBytes, aaBytes] : List Bytes) = m ++ [bbBytes, aaBytes])
    ∧ ∀ mbLines mbCode,
        merge_bases mbLines mbCode [aaBytes, bbBytes]
          = merge_bases mbLines mbCode [bbBytes, aaBytes] :=
  C7_deterministic_up_to_local_order c7Lines 0 [aaBytes, bbBytes] [bbBytes, aaBytes]
    [aaBytes, bbBytes] [bbBytes, aaBytes] (by decide) (by decide) (by decide) (by decide)

/-- C8: both parsing stages satisfy the scratch-buffer contract: started with
an empty buffer, the read_until loop of the branch enumeration and of the
merge-base calculation leaves the buffer empty for every collaborator
output stream (every chunk list). -/
theorem C8_buffer_empty_after_loop (chunks : List Bytes) :
    (lineFold ibStep (Except.ok ([], [])) [] chunks).2 = []
    ∧ (lineFold mbStep (Except.ok []) [] chunks).2 = [] :=
  ⟨lineFold_buffer_empty ibStep chunks _, lineFold_buffer_empty mbStep chunks _⟩

/-- C9 counterexample: a branch listing whose only line is a remote reference
with a non-UTF-8 bare name matching no local branch parses successfully: the
candidate is skipped before any text validation, so the run does not fail
although the output contains a reference that is not valid text. -/
theorem C9_unmatched_remote_skips_validation :
    validUtf8 ([111, 47] ++ [255]) = false
    ∧ interesting_branches c9Lines 0 = IbOut.ok [] := by
  decide

/-- C9 (amended): a non-UTF-8 reference is fatal exactly when it is actually
converted to text: every local branch name, every matched remote reference,
and every merge-base output line panics the run; unmatched remote candidates
are never validated. -/
theorem C9_invalid_text_fatal_when_converted :
    (∀ (lines : List Bytes) (code : Nat) (n : Bytes), n ∈ localLineNames lines →
      validUtf8 n = false →
      interesting_branches lines code = IbOut.panic PanicMsg.nonUtf8Branch)
    ∧ (∀ (lines : List Bytes) (code : Nat) (r n : Bytes), r ∈ remoteLineCands lines →
        bareName r = some n → n ∈ localLineNames lines → validUtf8 r = false →
        interesting_branches lines code = IbOut.panic PanicMsg.nonUtf8Branch)
    ∧ (∀ (lines : List Bytes) (code : Nat) (br : List Bytes) (l : Bytes), l ∈ lines →
        validUtf8 l = false →
        merge_bases lines code br = MbOut.panic PanicMsg.nonUtf8GitOutput) := by
  refine ⟨?_, ?_, ?_⟩
  · intro lines code n hn hbad
    unfold interesting_branches ibRun
    rw [ibParsed_eq]
    show ibFinish (parseLines lines).1 (parseLines lines).2 (localNames lines) code = _
    unfold ibFinish
    rw [validateAll_error_of_mem (List.mem_append.mpr (Or.inr (mem_localNames.mpr hn))) hbad]
  · intro lines code r n hr hb hn hbad
    unfold interesting_branches ibRun
    rw [ibParsed_eq]
    show ibFinish (parseLines lines).1 (parseLines lines).2 (localNames lines) code = _
    unfold ibFinish
    have hm : r ∈ matchedRemotes (parseLines lines).1 (parseLines lines).2 := by
      rw [mem_matchedRemotes hb]
      refine ⟨?_, mem_localNames.mpr hn⟩
      rw [show (parseLines lines).2 = remoteLineCands lines from remoteCands_eq lines]
      exact hr
    rw [validateAll_error_of_mem (List.mem_append.mpr (Or.inl hm)) hbad]
  · intro lines code br l hl hbad
    unfold merge_bases
    rw [mbParsed_eq, mb_error_of_mem hl hbad []]

/-- C9 witness: an invalid local name, an invalid matched remote, and an
invalid merge-base line all panic. -/
theorem C9_invalid_text_fatal_when_converted_witness :
    interesting_branches c9BadLocalLines 0 = IbOut.panic PanicMsg.nonUtf8Branch
    ∧ interesting_branches c9BadMatchedLines 0 = IbOut.panic PanicMsg.nonUtf8Branch
    ∧ merge_bases [[255]] 0 [] = MbOut.panic PanicMsg.nonUtf8GitOutput :=
  ⟨C9_invalid_text_fatal_when_converted.1 c9BadLocalLines 0 [255] (by decide) (by decide),
   C9_invalid_text_fatal_when_converted.2.1 c9BadMatchedLines 0 ([255, 47] ++ aaBytes) aaBytes
     (by decide) (by decide) (by decide) (by decide),
   C9_invalid_text_fatal_when_converted.2.2 [[255]] 0 [] [255] (by decide) (by decide)⟩

/-- C10: remote candidates are never deduplicated: when a remote reference
whose bare name matches a local branch occurs several times in the listing,
the Interesting Branch List counts it once per occurrence (plus one more
only in the degenerate case where the same string is itself a local name,
which the second conjunct rules out). -/
theorem C10_remote_multiplicity (lines : List Bytes) (code : Nat) (out : List Bytes)
    (r n : Bytes)
    (h1 : bareName r = some n) (h2 : n ∈ localLineNames lines)
    (h : interesting_branches lines code = IbOut.ok out) :
    out.count r = (remoteLineCands lines).count r + (localNames lines).count r
    ∧ (r ∉ localLineNames lines → out.count r = (remoteLineCands lines).count r) := by
  obtain ⟨h0, hout⟩ := interesting_branches_ok_inv h
  have hn : n ∈ localNames lines := mem_localNames.mpr h2
  have hc : (matchedRemotes (localNames lines) (remoteLineCands lines)).count r
      = (remoteLineCands lines).count r := count_matchedRemotes h1 hn
  constructor
  · rw [hout, List.count_append, hc]
  · intro hr
    have hz : (localNames lines).count r = 0 :=
      List.count_eq_zero.mpr fun hm => hr (mem_localNames.mp hm)
    rw [hout, List.count_append, hc, hz]
    omega

/-- C10 witness: the remote o/aa listed twice with local aa appears twice. -/
theorem C10_remote_multiplicity_witness :
    ([oaaBytes, oaaBytes, aaBytes] : List Bytes).count oaaBytes
        = (remoteLineCands w10Lines).count oaaBytes + (localNames w10Lines).count oaaBytes
    ∧ (oaaBytes ∉ localLineNames w10Lines →
        ([oaaBytes, oaaBytes, aaBytes] : List Bytes).count oaaBytes
          = (remoteLineCands w10Lines).count oaaBytes) :=
  C10_remote_multiplicity w10Lines 0 [oaaBytes, oaaBytes, aaBytes] oaaBytes aaBytes
    (by decide) (by decide) (by decide)

end GitTree
